import Mathlib

/-!
Shallow embedding of the UBL policy-evaluation kernel (Rust sources:
`engine.rs`, `ledger.rs`, `types.rs`, `interp.rs`).

Modelling conventions, stated once:

* JSON values (`serde_json::Value`) are the inductive `Json`.  Numbers are
  modelled as exact rationals in lowest terms (`Qv`); the source stores
  `i64`/`u64`/`f64`.  All numeric behaviour the claims touch (ordering,
  addition, the strict threshold test) is exact on the modelled values.
* SHA-256 over RFC 8785 (JCS) canonical bytes is modelled as an injective
  constructor of `HashVal`: the digest of a structure is the structure's
  hashed fields themselves.  This is the standard collision-free model of a
  cryptographic hash; two digests are equal exactly when the canonical
  preimages are equal.
* Ed25519 key pairs are modelled as a single `Nat` identifying the pair; a
  signature is the pair (key, signed message).  Verification succeeds exactly
  on the signature produced by the matching key, modelling EUF-CMA-perfect
  signatures.
* RFC 3339 timestamp strings at seconds precision are modelled as an
  injective rendering `render_ts` of the whole-second count, with `parse_ts`
  its partial inverse; `chrono::DateTime<Utc>` instants are integers counting
  nanoseconds.  `to_rfc3339_opts(Secs)` truncates to the floor second, which
  the model preserves (`Int.fdiv`); `Duration::num_seconds` truncates toward
  zero (`Int.tdiv`).
* The wall clock read by `verify_proof` (`Utc::now()`) is an explicit
  parameter `wallClock`.
-/

/-- Exact rational number standing in for an `f64` value: numerator and
denominator kept in lowest terms by `qnorm`.  (Core `Rat` arithmetic does not
reduce in the kernel, so witnesses use this self-contained type.) -/
structure Qv where
  n : Int
  d : Nat
  deriving DecidableEq, Repr

/-- Normalise a fraction with a natural denominator; a zero denominator maps
to 0 (never produced by the modelled operations on well-formed values). -/
def qnorm (n : Int) (d : Nat) : Qv :=
  if d = 0 then ⟨0, 1⟩
  else
    let g := Nat.gcd n.natAbs d
    ⟨Int.tdiv n g, d / g⟩

/-- Normalise a fraction with an integer denominator. -/
def qnormI (n d : Int) : Qv :=
  if d < 0 then qnorm (-n) d.natAbs else qnorm n d.natAbs

/-- Rational from an integer. -/
def Qv.ofInt (z : Int) : Qv := ⟨z, 1⟩

/-- Addition (`a + b` on `f64` in the source). -/
def Qv.add (a b : Qv) : Qv := qnorm (a.n * b.d + b.n * a.d) (a.d * b.d)

/-- Subtraction (`a - b` on `f64` in the source). -/
def Qv.sub (a b : Qv) : Qv := qnorm (a.n * b.d - b.n * a.d) (a.d * b.d)

/-- Division (`a / b` on `f64`; the division-by-zero guard sits at the call
site in the source). -/
def Qv.div (a b : Qv) : Qv := qnormI (a.n * b.d) (a.d * b.n)

/-- Strict order `a < b` (`f64` `<`). -/
def Qv.blt (a b : Qv) : Bool := a.n * b.d < b.n * a.d

/-- Order `a ≤ b` (`f64` `<=`). -/
def Qv.ble (a b : Qv) : Bool := a.n * b.d ≤ b.n * a.d

/-- Absolute value (`f64::abs`). -/
def Qv.abs (a : Qv) : Qv := ⟨a.n.natAbs, a.d⟩

/-- Floor to an integer value (`f64::floor`). -/
def Qv.floor (a : Qv) : Qv := ⟨Int.fdiv a.n a.d, 1⟩

/-- Ceiling to an integer value (`f64::ceil`). -/
def Qv.ceil (a : Qv) : Qv := ⟨-(Int.fdiv (-a.n) a.d), 1⟩

/-- Minimum (`f64::min`). -/
def Qv.minQ (a b : Qv) : Qv := if Qv.blt b a then b else a

/-- Maximum (`f64::max`). -/
def Qv.maxQ (a b : Qv) : Qv := if Qv.blt a b then b else a

/-- `serde_json::Value`: the JSON value tree.  Objects are association lists
in insertion order (the source uses a map; only lookup, insert and remove are
ever performed, which the list models faithfully). -/
inductive Json where
  | null : Json
  | bool (b : Bool) : Json
  | num (q : Qv) : Json
  | str (s : String) : Json
  | arr (xs : List Json) : Json
  | obj (fields : List (String × Json)) : Json

mutual

/-- Structural (boolean) equality on `Json`, matching `serde_json`'s `==`. -/
def Json.beq : Json → Json → Bool
  | .null, .null => true
  | .bool a, .bool b => a == b
  | .num a, .num b => a == b
  | .str a, .str b => a == b
  | .arr a, .arr b => Json.beqList a b
  | .obj a, .obj b => Json.beqKVs a b
  | _, _ => false

/-- Pointwise equality of JSON arrays. -/
def Json.beqList : List Json → List Json → Bool
  | [], [] => true
  | a :: as, b :: bs => Json.beq a b && Json.beqList as bs
  | _, _ => false

/-- Pointwise equality of JSON object fields. -/
def Json.beqKVs : List (String × Json) → List (String × Json) → Bool
  | [], [] => true
  | (k, v) :: as, (k2, v2) :: bs => k == k2 && Json.beq v v2 && Json.beqKVs as bs
  | _, _ => false

end

mutual

theorem json_beq_iff : ∀ (a b : Json), Json.beq a b = true ↔ a = b
  | .null, .null => by simp [Json.beq]
  | .bool a, .bool b => by simp [Json.beq]
  | .num a, .num b => by simp [Json.beq]
  | .str a, .str b => by simp [Json.beq]
  | .arr a, .arr b => by
      simp only [Json.beq, json_beqList_iff a b, Json.arr.injEq]
  | .obj a, .obj b => by
      simp only [Json.beq, json_beqKVs_iff a b, Json.obj.injEq]
  | .null, .bool _ | .null, .num _ | .null, .str _ | .null, .arr _ | .null, .obj _
  | .bool _, .null | .bool _, .num _ | .bool _, .str _ | .bool _, .arr _ | .bool _, .obj _
  | .num _, .null | .num _, .bool _ | .num _, .str _ | .num _, .arr _ | .num _, .obj _
  | .str _, .null | .str _, .bool _ | .str _, .num _ | .str _, .arr _ | .str _, .obj _
  | .arr _, .null | .arr _, .bool _ | .arr _, .num _ | .arr _, .str _ | .arr _, .obj _
  | .obj _, .null | .obj _, .bool _ | .obj _, .num _ | .obj _, .str _ | .obj _, .arr _ => by
      simp [Json.beq]

theorem json_beqList_iff : ∀ (a b : List Json), Json.beqList a b = true ↔ a = b
  | [], [] => by simp [Json.beqList]
  | a :: as, b :: bs => by
      simp [Json.beqList, json_beq_iff a b, json_beqList_iff as bs]
  | [], _ :: _ | _ :: _, [] => by simp [Json.beqList]

theorem json_beqKVs_iff : ∀ (a b : List (String × Json)), Json.beqKVs a b = true ↔ a = b
  | [], [] => by simp [Json.beqKVs]
  | (k, v) :: as, (k2, v2) :: bs => by
      simp [Json.beqKVs, json_beq_iff v v2, json_beqKVs_iff as bs, and_assoc]
  | [], _ :: _ | _ :: _, [] => by simp [Json.beqKVs]

end

instance : DecidableEq Json := fun a b => decidable_of_iff _ (json_beq_iff a b)

/-- `Value::get(key)`: field lookup, objects only. -/
def Json.get (v : Json) (k : String) : Option Json :=
  match v with
  | .obj fields => (fields.find? (fun kv => kv.1 == k)).map (·.2)
  | _ => none

/-- `Value::as_bool`. -/
def Json.asBool (v : Json) : Option Bool :=
  match v with
  | .bool b => some b
  | _ => none

/-- `Value::as_str`. -/
def Json.asStr (v : Json) : Option String :=
  match v with
  | .str s => some s
  | _ => none

/-- `Value::as_array`. -/
def Json.asArr (v : Json) : Option (List Json) :=
  match v with
  | .arr xs => some xs
  | _ => none

/-- `Value::is_null`. -/
def Json.isNull (v : Json) : Bool :=
  match v with
  | .null => true
  | _ => false

/-- `Value::is_object`. -/
def Json.isObj (v : Json) : Bool :=
  match v with
  | .obj _ => true
  | _ => false

/-- Association-list lookup (first binding wins), modelling `HashMap::get`. -/
def alookup {α β : Type} [DecidableEq α] (k : α) : List (α × β) → Option β
  | [] => none
  | (k2, v) :: rest => if k2 = k then some v else alookup k rest

/-- Association-list insert-or-replace in place, modelling `HashMap::insert`
(re-inserting an existing binding leaves the map unchanged). -/
def ainsert {α β : Type} [DecidableEq α] (k : α) (v : β) : List (α × β) → List (α × β)
  | [] => [(k, v)]
  | (k2, v2) :: rest => if k2 = k then (k, v) :: rest else (k2, v2) :: ainsert k v rest

/-- Association-list removal, modelling `Map::remove`. -/
def aremove {α β : Type} [DecidableEq α] (k : α) : List (α × β) → List (α × β)
  | [] => []
  | (k2, v2) :: rest => if k2 = k then rest else (k2, v2) :: aremove k rest

/-- Nanoseconds per second: `chrono` instants are counted in nanoseconds. -/
def nsPerSec : Int := 1000000000

/-- Injective rendering of a whole-second count as a timestamp string; models
the RFC 3339 seconds-precision Zulu string `to_rfc3339_opts(Secs, true)`
produces (the concrete character syntax is abstracted, its injectivity and
parseability are preserved). -/
def render_ts (s : Int) : String :=
  if s < 0 then String.mk ('t' :: 's' :: '-' :: List.replicate s.natAbs 'I')
  else String.mk ('t' :: 's' :: '+' :: List.replicate s.natAbs 'I')

/-- `DateTime::parse_from_rfc3339` reduced to the model's timestamp syntax:
the partial inverse of `render_ts`, returning the whole-second count; any
other string fails to parse. -/
def parse_ts (str : String) : Option Int :=
  match str.data with
  | 't' :: 's' :: '+' :: rest =>
      if rest.all (fun c => c = 'I') then some (rest.length : Int) else none
  | 't' :: 's' :: '-' :: rest =>
      if rest.all (fun c => c = 'I') then some (-(rest.length : Int)) else none
  | _ => none

theorem repAll (n : Nat) : (List.replicate n 'I').all (fun c => c = 'I') = true := by
  simp [List.all_eq_true]

theorem parse_render_ts (s : Int) : parse_ts (render_ts s) = some s := by
  rcases lt_or_le s 0 with h | h
  · have h1 : render_ts s = String.mk ('t' :: 's' :: '-' :: List.replicate s.natAbs 'I') := by
      unfold render_ts
      rw [if_pos h]
    have h2 : parse_ts (String.mk ('t' :: 's' :: '-' :: List.replicate s.natAbs 'I')) =
        if (List.replicate s.natAbs 'I').all (fun c => c = 'I') then
          some (-((List.replicate s.natAbs 'I').length : Int)) else none := rfl
    rw [h1, h2, if_pos (repAll _), List.length_replicate]
    congr 1
    omega
  · have h1 : render_ts s = String.mk ('t' :: 's' :: '+' :: List.replicate s.natAbs 'I') := by
      unfold render_ts
      rw [if_neg (not_lt.mpr h)]
    have h2 : parse_ts (String.mk ('t' :: 's' :: '+' :: List.replicate s.natAbs 'I')) =
        if (List.replicate s.natAbs 'I').all (fun c => c = 'I') then
          some ((List.replicate s.natAbs 'I').length : Int) else none := rfl
    rw [h1, h2, if_pos (repAll _), List.length_replicate]
    congr 1
    omega

/-- Floor second of an instant (`chrono` timestamps carry `secs` as the floor
and non-negative sub-second nanos). -/
def floorSec (t : Int) : Int := Int.fdiv t nsPerSec

/-- `Duration::num_seconds`: whole seconds of a signed duration, truncating
toward zero. -/
def num_seconds (d : Int) : Int := Int.tdiv d nsPerSec

/-- `ExecMeta`: transaction id and execution instant (`DateTime<Utc>`,
modelled in nanoseconds). -/
structure ExecMeta where
  tx_id : String
  execution_time : Int
  deriving DecidableEq, Repr

/-- `Kernel::now_rfc3339`: seconds-precision rendering of the execution
time. -/
def now_rfc3339 (meta : ExecMeta) : String := render_ts (floorSec meta.execution_time)

/-- `Kernel::time_bucket`: fixed formatted prefix of a parsed timestamp;
bucket strings are rendered with an injective unit tag. -/
def time_bucket (ts unit : String) : String :=
  match parse_ts ts with
  | none => ""
  | some s =>
      match unit with
      | "minute" => "bkt-min:" ++ toString (Int.fdiv s 60)
      | "hour" => "bkt-hour:" ++ toString (Int.fdiv s 3600)
      | "day" => "bkt-day:" ++ toString (Int.fdiv s 86400)
      | _ => ""

/-- `CompareOp` (serde names `==`, `!=`, `>`, `<`, `>=`, `<=`, `in`,
`exists`; the last two are spelled `isIn` and `exOp` here). -/
inductive CompareOp where
  | eq | ne | gt | lt | ge | le | isIn | exOp
  deriving DecidableEq, Repr

/-- `LogicOp`. -/
inductive LogicOp where
  | and | or | not
  deriving DecidableEq, Repr

/-- `Expr`: the expression language (`types.rs`). -/
inductive Expr where
  | literal (value : Json) : Expr
  | path (path : List String) (fallback : Option Json) : Expr
  | compare (op : CompareOp) (left right : Expr) : Expr
  | logic (op : LogicOp) (args : List Expr) : Expr
  | call (function : String) (args : List Expr) : Expr

mutual

/-- Structural equality on expressions. -/
def Expr.beq : Expr → Expr → Bool
  | .literal a, .literal b => a == b
  | .path p f, .path p2 f2 => p == p2 && f == f2
  | .compare o l r, .compare o2 l2 r2 => o == o2 && Expr.beq l l2 && Expr.beq r r2
  | .logic o a, .logic o2 a2 => o == o2 && Expr.beqList a a2
  | .call f a, .call f2 a2 => f == f2 && Expr.beqList a a2
  | _, _ => false

/-- Pointwise equality of expression lists. -/
def Expr.beqList : List Expr → List Expr → Bool
  | [], [] => true
  | a :: as, b :: bs => Expr.beq a b && Expr.beqList as bs
  | _, _ => false

end

mutual

theorem expr_beq_iff : ∀ (a b : Expr), Expr.beq a b = true ↔ a = b
  | .literal a, .literal b => by simp [Expr.beq]
  | .path p f, .path p2 f2 => by simp [Expr.beq]
  | .compare o l r, .compare o2 l2 r2 => by
      simp [Expr.beq, expr_beq_iff l l2, expr_beq_iff r r2, and_assoc]
  | .logic o a, .logic o2 a2 => by
      simp [Expr.beq, expr_beqList_iff a a2]
  | .call f a, .call f2 a2 => by
      simp [Expr.beq, expr_beqList_iff a a2]
  | .literal _, .path _ _ | .literal _, .compare _ _ _ | .literal _, .logic _ _
  | .literal _, .call _ _
  | .path _ _, .literal _ | .path _ _, .compare _ _ _ | .path _ _, .logic _ _
  | .path _ _, .call _ _
  | .compare _ _ _, .literal _ | .compare _ _ _, .path _ _ | .compare _ _ _, .logic _ _
  | .compare _ _ _, .call _ _
  | .logic _ _, .literal _ | .logic _ _, .path _ _ | .logic _ _, .compare _ _ _
  | .logic _ _, .call _ _
  | .call _ _, .literal _ | .call _ _, .path _ _ | .call _ _, .compare _ _ _
  | .call _ _, .logic _ _ => by simp [Expr.beq]

theorem expr_beqList_iff : ∀ (a b : List Expr), Expr.beqList a b = true ↔ a = b
  | [], [] => by simp [Expr.beqList]
  | a :: as, b :: bs => by
      simp [Expr.beqList, expr_beq_iff a b, expr_beqList_iff as bs]
  | [], _ :: _ | _ :: _, [] => by simp [Expr.beqList]

end

instance : DecidableEq Expr := fun a b => decidable_of_iff _ (expr_beq_iff a b)

/-- `Gate`: named, documented predicate. -/
structure Gate where
  id : String
  description : String
  expr : Expr
  deriving DecidableEq

/-- `CompositionType`. -/
inductive CompositionType where
  | ALL | ANY | MAJORITY | WEIGHTED
  deriving DecidableEq, Repr

/-- `CompositionDef`: kind, weight vector, strict threshold. -/
structure CompositionDef where
  kind : CompositionType
  weights : List Qv
  threshold : Qv
  deriving DecidableEq

/-- `Composition` (renamed: the bare name is taken by Mathlib): shorthand
string or full definition. -/
inductive ChipComposition where
  | shorthand (s : String) : ChipComposition
  | full (c : CompositionDef) : ChipComposition
  deriving DecidableEq

/-- `GateValues`: captured compare evidence. -/
structure GateValues where
  left : Option Json
  right : Option Json
  deriving DecidableEq

/-- Default `GateValues` (both sides absent). -/
def GateValues.default : GateValues := ⟨none, none⟩

/-- `GateResult`. -/
structure GateResult where
  id : String
  result : Bool
  values : GateValues
  error : Option String
  deriving DecidableEq

/-- `Effect`: the tagged effect variants (`types.rs`). -/
inductive Effect where
  | set (target : String) (value : Expr) : Effect
  | increment (target : String) (amount : Expr) : Effect
  | decrement (target : String) (amount : Expr) : Effect
  | append (target : String) (value : Expr) : Effect
  | remove (target : String) (value : Expr) : Effect
  | create (entity_type : String) (id : Expr) (data : Json) : Effect
  | delete (target : String) : Effect
  | emit (event : String) (data : Json) : Effect
  | fail (message : String) : Effect
  deriving DecidableEq

/-- Lowercase-hex SHA-256 digests of JCS canonical forms, modelled as an
injective datatype: `Kernel::jcs_hash` of a chip / proof / record (with its
own hash and signature fields cleared, exactly as the source clears them)
is the corresponding constructor applied to the remaining fields.  `str`
embeds arbitrary digest strings (for example the empty placeholder `""`). -/
inductive HashVal where
  | str (s : String) : HashVal
  | chipH (name description : String) (gates : List Gate)
      (composition : ChipComposition) : HashVal
  | proofH (chip_hash : HashVal) (evaluated_at : String) (context_snapshot : Json)
      (gates : List GateResult) (failed_gates : List String)
      (final_result : Nat) : HashVal
  | recordH (id : String) (version_applied_to resulting_version : Nat)
      (timestamp : String) (program_hash input_hash : String)
      (proof_hash : HashVal) (applied_effects : List Effect)
      (previous_record_hash : Option HashVal) : HashVal

mutual

/-- Structural equality of modelled digests. -/
def HashVal.beq : HashVal → HashVal → Bool
  | .str a, .str b => a == b
  | .chipH n d g c, .chipH n2 d2 g2 c2 => n == n2 && d == d2 && g == g2 && c == c2
  | .proofH ch ev cs g f fr, .proofH ch2 ev2 cs2 g2 f2 fr2 =>
      HashVal.beq ch ch2 && ev == ev2 && cs == cs2 && g == g2 && f == f2 && fr == fr2
  | .recordH i va rv ts ph ih prf ae prev, .recordH i2 va2 rv2 ts2 ph2 ih2 prf2 ae2 prev2 =>
      i == i2 && va == va2 && rv == rv2 && ts == ts2 && ph == ph2 && ih == ih2 &&
      HashVal.beq prf prf2 && ae == ae2 && HashVal.beqOpt prev prev2
  | _, _ => false

/-- Equality of optional digests. -/
def HashVal.beqOpt : Option HashVal → Option HashVal → Bool
  | none, none => true
  | some a, some b => HashVal.beq a b
  | _, _ => false

end

mutual

theorem hash_beq_iff : ∀ (a b : HashVal), HashVal.beq a b = true ↔ a = b
  | .str a, .str b => by simp [HashVal.beq]
  | .chipH n d g c, .chipH n2 d2 g2 c2 => by
      simp [HashVal.beq, and_assoc]
  | .proofH ch ev cs g f fr, .proofH ch2 ev2 cs2 g2 f2 fr2 => by
      simp [HashVal.beq, hash_beq_iff ch ch2, and_assoc]
  | .recordH i va rv ts ph ih prf ae prev, .recordH i2 va2 rv2 ts2 ph2 ih2 prf2 ae2 prev2 => by
      simp [HashVal.beq, hash_beq_iff prf prf2, hash_beqOpt_iff prev prev2, and_assoc]
  | .str _, .chipH _ _ _ _ | .str _, .proofH _ _ _ _ _ _
  | .str _, .recordH _ _ _ _ _ _ _ _ _
  | .chipH _ _ _ _, .str _ | .chipH _ _ _ _, .proofH _ _ _ _ _ _
  | .chipH _ _ _ _, .recordH _ _ _ _ _ _ _ _ _
  | .proofH _ _ _ _ _ _, .str _ | .proofH _ _ _ _ _ _, .chipH _ _ _ _
  | .proofH _ _ _ _ _ _, .recordH _ _ _ _ _ _ _ _ _
  | .recordH _ _ _ _ _ _ _ _ _, .str _ | .recordH _ _ _ _ _ _ _ _ _, .chipH _ _ _ _
  | .recordH _ _ _ _ _ _ _ _ _, .proofH _ _ _ _ _ _ => by simp [HashVal.beq]

theorem hash_beqOpt_iff : ∀ (a b : Option HashVal), HashVal.beqOpt a b = true ↔ a = b
  | none, none => by simp [HashVal.beqOpt]
  | some a, some b => by simp [HashVal.beqOpt, hash_beq_iff a b]
  | none, some _ | some _, none => by simp [HashVal.beqOpt]

end

instance : DecidableEq HashVal := fun a b => decidable_of_iff _ (hash_beq_iff a b)

/-- `Chip`: name, description, ordered gates, composition, content hash. -/
structure Chip where
  name : String
  description : String
  gates : List Gate
  composition : ChipComposition
  hash : HashVal
  deriving DecidableEq

/-- A base64 Ed25519 signature string, modelled as the signing key pair's
identifier together with the signed message (the ASCII hash string). -/
structure Sig where
  key : Nat
  msg : HashVal
  deriving DecidableEq

/-- `KeyMaterial`: optional signing / verifying halves.  A key pair is one
`Nat`; a consistent pair (`from_env` derivation) uses the same `Nat` on both
sides, but the struct permits arbitrary combinations, as the source does. -/
structure KeyMaterial where
  signing : Option Nat
  verifying : Option Nat
  deriving DecidableEq, Repr

/-- `KeyMaterial::sign_b64`: sign iff a signing key is present. -/
def sign_b64 (keys : KeyMaterial) (msg : HashVal) : Option Sig :=
  keys.signing.map (fun sk => ⟨sk, msg⟩)

/-- `KeyMaterial::verify_sig_b64`: false without a verifying key; otherwise
true exactly for the signature the matching signing key produces over the
message. -/
def verify_sig_b64 (keys : KeyMaterial) (msg : HashVal) (sig : Sig) : Bool :=
  match keys.verifying with
  | none => false
  | some vk => sig == ⟨vk, msg⟩

/-- `Proof` (`types.rs`): the auditable record of one chip evaluation. -/
structure Proof where
  chip_hash : HashVal
  evaluated_at : String
  context_snapshot : Json
  gates : List GateResult
  failed_gates : List String
  final_result : Nat
  proof_hash : HashVal
  signature : Option Sig
  deriving DecidableEq

/-- `EffectRecord` (`types.rs`): one hash-chained history entry. -/
structure EffectRecord where
  id : String
  version_applied_to : Nat
  resulting_version : Nat
  timestamp : String
  program_hash : String
  input_hash : String
  proof_hash : HashVal
  applied_effects : List Effect
  previous_record_hash : Option HashVal
  record_hash : HashVal
  record_signature : Option Sig
  deriving DecidableEq

/-- `ContextSource`. -/
inductive ContextSource where
  | ledger | input | computed
  deriving DecidableEq

/-- `ContextDef`. -/
structure ContextDef where
  name : String
  source : ContextSource
  path : String
  expression : Option Expr
  deriving DecidableEq

/-- `ProgramInput`. -/
structure ProgramInput where
  name : String
  input_type : String
  required : Bool
  deriving DecidableEq

/-- `Program` (`types.rs`); carried in the registry (its registration path
is outside the claims under verification). -/
structure Program where
  name : String
  description : String
  inputs : List ProgramInput
  context : List ContextDef
  evaluate : String
  on_allow : List Effect
  on_deny : List Effect
  hash : HashVal
  deriving DecidableEq

/-- `Registry`: chips by hash, the unique name → hash index, programs by
name. -/
structure Registry where
  chips : List (HashVal × Chip)
  chip_names : List (String × HashVal)
  programs : List (String × Program)
  deriving DecidableEq

/-- `Meta` of the ledger state (named `LedgerMeta` here; the bare name is
pervasive in Lean). -/
structure LedgerMeta where
  version : Nat
  created_at : String
  deriving DecidableEq

/-- `LedgerState`: meta, registry, entity tree, append-only history. -/
structure LedgerState where
  meta : LedgerMeta
  registry : Registry
  root : Json
  history : List EffectRecord
  deriving DecidableEq

/-- `UblError` (`error.rs`); payloads are the formatted messages. -/
inductive UblError where
  | programNotFound (s : String) : UblError
  | chipNotFound (s : String) : UblError
  | validation (s : String) : UblError
  | logicDenied (s : String) : UblError
  | unauthorized : UblError
  | ledgerIo (s : String) : UblError
  | serde (s : String) : UblError
  | state (s : String) : UblError
  | external (s : String) : UblError
  deriving DecidableEq

deriving instance DecidableEq for Except

/-- `Kernel::compute_chip_hash`: canonical hash of the chip with its `hash`
field cleared. -/
def compute_chip_hash (chip : Chip) : HashVal :=
  HashVal.chipH chip.name chip.description chip.gates chip.composition

/-- Canonical hash of a proof with `proof_hash` and `signature` cleared,
exactly as both `execute_chip_signed` and `verify_proof` compute it. -/
def proof_hash_of (p : Proof) : HashVal :=
  HashVal.proofH p.chip_hash p.evaluated_at p.context_snapshot p.gates
    p.failed_gates p.final_result

/-- Canonical hash of a record with `record_hash` and `record_signature`
cleared, as `apply_transaction` computes it. -/
def record_hash_of (r : EffectRecord) : HashVal :=
  HashVal.recordH r.id r.version_applied_to r.resulting_version r.timestamp
    r.program_hash r.input_hash r.proof_hash r.applied_effects
    r.previous_record_hash

/-- `Kernel::resolve_path`: traverse object keys in order. -/
def resolve_path (root : Json) (path : List String) : Option Json :=
  match path with
  | [] => some root
  | k :: rest =>
      match root.get k with
      | none => none
      | some v => resolve_path v rest

/-- `Kernel::as_f64`: numeric coercion (floats, integers widened). -/
def as_f64 (v : Json) : Option Qv :=
  match v with
  | .num q => some q
  | _ => none

/-- Substring containment (`str::contains`). -/
def substr_of (needle hay : String) : Bool :=
  hay.data.tails.any (fun tl => needle.data.isPrefixOf tl)

/-- `Kernel::compare_strict` (`engine.rs`): strict comparison semantics. -/
def compare_strict (op : CompareOp) (l r : Json) : Bool :=
  match op with
  | .eq => l == r
  | .ne => l != r
  | .exOp => !l.isNull
  | .isIn =>
      match r.asArr with
      | some xs => xs.any (fun x => x == l)
      | none =>
          match l.asStr, r.asStr with
          | some ls, some rs => substr_of ls rs
          | _, _ => false
  | .gt | .lt | .ge | .le =>
      match as_f64 l, as_f64 r with
      | some a, some b =>
          match op with
          | .gt => Qv.blt b a
          | .lt => Qv.blt a b
          | .ge => Qv.ble b a
          | .le => Qv.ble a b
          | _ => false
      | _, _ => false

/-- Injective stand-in for the base64 Ed25519 signature by public key `pk`
over `msg` (used by the `verify_ed25519` builtin). -/
def ed25519_sig_str (pk msg : String) : String := "ed25519:" ++ pk ++ ":" ++ msg

/-- ASCII lowercase of a string (`str::to_lowercase`; the model applies the
per-char fold core Lean provides). -/
def str_lower (s : String) : String := String.mk (s.data.map Char.toLower)

/-- ASCII uppercase of a string (`str::to_uppercase`). -/
def str_upper (s : String) : String := String.mk (s.data.map Char.toUpper)

/-- Prefix test (`str::starts_with`). -/
def str_starts (s p : String) : Bool := p.data.isPrefixOf s.data

/-- Suffix test (`str::ends_with`). -/
def str_ends (s p : String) : Bool := p.data.reverse.isPrefixOf s.data.reverse

/-- Built-in function dispatch of `Kernel::eval_expr`'s `Call` arm
(`engine.rs`), over already-evaluated argument values; `t` is
`meta.execution_time`. -/
def call_fn (function : String) (vals : List Json) (t : Int) : Json :=
  let arg0 := vals.head?.getD Json.null
  let arg1 := (vals.get? 1).getD Json.null
  match function with
  | "now" => Json.str (render_ts (Int.fdiv t nsPerSec))
  | "before" =>
      let a := (arg0.asStr).getD ""
      let b := (arg1.asStr).getD ""
      match parse_ts a, parse_ts b with
      | some x, some y => Json.bool (x < y)
      | _, _ => Json.bool false
  | "after" =>
      let a := (arg0.asStr).getD ""
      let b := (arg1.asStr).getD ""
      match parse_ts a, parse_ts b with
      | some x, some y => Json.bool (x > y)
      | _, _ => Json.bool false
  | "age" =>
      let a := (arg0.asStr).getD ""
      match parse_ts a with
      | some x => Json.num (Qv.ofInt (num_seconds (t - x * nsPerSec)))
      | none => Json.num (Qv.ofInt 0)
  | "time_bucket" =>
      Json.str (time_bucket ((arg0.asStr).getD "") ((arg1.asStr).getD ""))
  | "lower" => Json.str (str_lower ((arg0.asStr).getD ""))
  | "upper" => Json.str (str_upper ((arg0.asStr).getD ""))
  | "starts_with" => Json.bool (str_starts ((arg0.asStr).getD "") ((arg1.asStr).getD ""))
  | "ends_with" => Json.bool (str_ends ((arg0.asStr).getD "") ((arg1.asStr).getD ""))
  | "length" | "len" =>
      match arg0.asArr with
      | some xs => Json.num (Qv.ofInt xs.length)
      | none =>
          match arg0.asStr with
          | some s => Json.num (Qv.ofInt s.data.length)
          | none => Json.num (Qv.ofInt 0)
  | "empty" =>
      match arg0.asArr with
      | some xs => Json.bool xs.isEmpty
      | none => Json.bool true
  | "contains" =>
      match arg0.asStr, arg1.asStr with
      | some s, some sub => Json.bool (substr_of sub s)
      | _, _ =>
          match arg0.asArr with
          | some xs => Json.bool (xs.any (fun x => x == arg1))
          | none => Json.bool false
  | "abs" => Json.num (((as_f64 arg0).map Qv.abs).getD ⟨0, 1⟩)
  | "floor" => Json.num (((as_f64 arg0).map Qv.floor).getD ⟨0, 1⟩)
  | "ceil" => Json.num (((as_f64 arg0).map Qv.ceil).getD ⟨0, 1⟩)
  | "min" => Json.num (Qv.minQ ((as_f64 arg0).getD ⟨0, 1⟩) ((as_f64 arg1).getD ⟨0, 1⟩))
  | "max" => Json.num (Qv.maxQ ((as_f64 arg0).getD ⟨0, 1⟩) ((as_f64 arg1).getD ⟨0, 1⟩))
  | "add" => Json.num (Qv.add ((as_f64 arg0).getD ⟨0, 1⟩) ((as_f64 arg1).getD ⟨0, 1⟩))
  | "sub" => Json.num (Qv.sub ((as_f64 arg0).getD ⟨0, 1⟩) ((as_f64 arg1).getD ⟨0, 1⟩))
  | "div" =>
      let a := (as_f64 arg0).getD ⟨0, 1⟩
      let b := (as_f64 arg1).getD ⟨0, 1⟩
      if b.n = 0 then Json.num ⟨0, 1⟩ else Json.num (Qv.div a b)
  | "sha256" => Json.str ("sha256:" ++ ((arg0.asStr).getD ""))
  | "verify_ed25519" =>
      let pk := (arg0.asStr).getD ""
      let msg := ((vals.get? 1).getD Json.null |>.asStr).getD ""
      let sig := ((vals.get? 2).getD Json.null |>.asStr).getD ""
      Json.bool (sig == ed25519_sig_str pk msg)
  | _ => Json.null

mutual

/-- `Kernel::eval_expr` (`engine.rs`): deterministic expression evaluation.
The source receives the whole `ExecMeta` but reads only `execution_time`,
passed here as `t`. -/
def eval_expr (e : Expr) (ctx : Json) (t : Int) : Json :=
  match e with
  | .literal v => v
  | .path p fb => ((resolve_path ctx p).or fb).getD Json.null
  | .compare op l r =>
      Json.bool (compare_strict op (eval_expr l ctx t) (eval_expr r ctx t))
  | .logic op args =>
      let vals := (eval_list args ctx t).map (fun v => (v.asBool).getD false)
      Json.bool
        (match op with
         | .and => vals.all (fun x => x)
         | .or => vals.any (fun x => x)
         | .not => !(vals.head?.getD false))
  | .call f args =>
      call_fn f (eval_list args ctx t) t

/-- Evaluation of an argument list in order (the `args.iter().map(...)`
loops of the `Logic` and `Call` arms). -/
def eval_list (es : List Expr) (ctx : Json) (t : Int) : List Json :=
  match es with
  | [] => []
  | e :: rest => eval_expr e ctx t :: eval_list rest ctx t

end

/-- `Kernel::eval_gate_expr`: gate evaluation with compare evidence. -/
def eval_gate_expr (e : Expr) (ctx : Json) (t : Int) :
    Bool × GateValues × Option String :=
  match e with
  | .compare op left right =>
      let l := eval_expr left ctx t
      let r := eval_expr right ctx t
      (compare_strict op l r, ⟨some l, some r⟩, none)
  | _ =>
      let v := eval_expr e ctx t
      match v.asBool with
      | some b => (b, GateValues.default, none)
      | none => (false, GateValues.default, some "gate_not_boolean")

/-- Gate results of a chip run (`execute_chip_signed`'s first loop). -/
def run_gates (chip : Chip) (ctx : Json) (t : Int) : List GateResult :=
  chip.gates.map (fun g =>
    let rve := eval_gate_expr g.expr ctx t
    { id := g.id, result := rve.1, values := rve.2.1, error := rve.2.2 })

/-- Shorthand → full composition resolution (`execute_chip_signed`); unknown
shorthand strings resolve to ALL. -/
def resolve_composition : ChipComposition → CompositionDef
  | .shorthand s =>
      { kind :=
          match s with
          | "ALL" => .ALL
          | "ANY" => .ANY
          | "MAJORITY" => .MAJORITY
          | "WEIGHTED" => .WEIGHTED
          | _ => .ALL,
        weights := [], threshold := ⟨0, 1⟩ }
  | .full c => c

/-- Sum of the weights of passing gates (the WEIGHTED loop, applied under
the length check). -/
def weighted_sum (ws : List Qv) (gs : List GateResult) : Qv :=
  (List.zip ws gs).foldl (fun acc wg => if wg.2.result then Qv.add acc wg.1 else acc) ⟨0, 1⟩

/-- The `final_result` computation of `execute_chip_signed`: composition of
gate outcomes; `nGates` is `chip.gates.len()`. -/
def composed_result (comp : CompositionDef) (nGates : Nat) (gates : List GateResult) : Nat :=
  let passed := gates.countP (fun g => g.result)
  let total := max gates.length 1
  match comp.kind with
  | .ALL => if passed = total then 1 else 0
  | .ANY => if passed > 0 then 1 else 0
  | .MAJORITY => if passed * 2 > total then 1 else 0
  | .WEIGHTED =>
      if comp.weights.length ≠ nGates then 0
      else if Qv.blt comp.threshold (weighted_sum comp.weights gates) then 1 else 0

/-- `Kernel::execute_chip_signed` (`engine.rs`): run the gates, compose the
final result, assemble the proof, hash it (with `proof_hash`/`signature`
cleared), and sign the hash when a signing key is present. -/
def execute_chip_signed (chip : Chip) (ctx : Json) (meta : ExecMeta)
    (keys : KeyMaterial) : Proof :=
  let gates := run_gates chip ctx meta.execution_time
  let comp := resolve_composition chip.composition
  let fr := composed_result comp chip.gates.length gates
  let failed := (gates.filter (fun g => !g.result)).map (fun g => g.id)
  let p0 : Proof :=
    { chip_hash := chip.hash,
      evaluated_at := now_rfc3339 meta,
      context_snapshot := ctx,
      gates := gates,
      failed_gates := failed,
      final_result := fr,
      proof_hash := .str "",
      signature := none }
  let ph := proof_hash_of p0
  { p0 with proof_hash := ph, signature := sign_b64 keys ph }

/-- The replay instant of `verify_proof`: `evaluated_at` parsed back to an
instant, or the wall clock (`Utc::now()`, the explicit `wallClock`
parameter) when parsing fails. -/
def verify_exec_time (proof : Proof) (wallClock : Int) : Int :=
  match parse_ts proof.evaluated_at with
  | some s => s * nsPerSec
  | none => wallClock

/-- `Kernel::verify_proof` (`engine.rs`): chip-hash check, proof-hash
recomputation, deterministic replay at `evaluated_at` (falling back to the
wall clock when `evaluated_at` does not parse), and signature check when
both a signature and a verifying key are present. -/
def verify_proof (proof : Proof) (chip : Chip) (keys : KeyMaterial)
    (wallClock : Int) : Bool :=
  if proof.chip_hash ≠ chip.hash then false
  else if proof_hash_of proof ≠ proof.proof_hash then false
  else if (execute_chip_signed chip proof.context_snapshot
      ⟨"verify", verify_exec_time proof wallClock⟩ ⟨none, none⟩).final_result ≠
      proof.final_result then false
  else
    match proof.signature, keys.verifying with
    | some sig, some _ => verify_sig_b64 keys proof.proof_hash sig
    | _, _ => true

/-- Compact rendering of a number (`serde_json` `Display`); the model prints
the exact rational (integer when the denominator is 1) where the source
prints the `f64` decimal form — an injective rendering either way. -/
def render_num (q : Qv) : String :=
  if q.d = 1 then toString q.n else toString q.n ++ "/" ++ toString q.d

mutual

/-- `Value::to_string()`: compact JSON rendering (string escaping elided —
no modelled string requires escapes). -/
def render_json : Json → String
  | .null => "null"
  | .bool true => "true"
  | .bool false => "false"
  | .num q => render_num q
  | .str s => "\"" ++ s ++ "\""
  | .arr xs => "[" ++ render_list xs ++ "]"
  | .obj kvs => "\x7b" ++ render_kvs kvs ++ "\x7d"

/-- Comma-joined rendering of array elements. -/
def render_list : List Json → String
  | [] => ""
  | [x] => render_json x
  | x :: rest => render_json x ++ "," ++ render_list rest

/-- Comma-joined rendering of object fields. -/
def render_kvs : List (String × Json) → String
  | [] => ""
  | [(k, v)] => "\"" ++ k ++ "\":" ++ render_json v
  | (k, v) :: rest => "\"" ++ k ++ "\":" ++ render_json v ++ "," ++ render_kvs rest

end

/-- `serde_json::to_string` of the failed-gate id list (used by the
`proof.failed_gates` template token). -/
def render_failed_gates (l : List String) : String :=
  "[" ++ String.intercalate "," (l.map (fun s => "\"" ++ s ++ "\"")) ++ "]"

/-- `split('.')` with empty segments dropped: shared by `ledger::split_path`
and `interp::resolve_token`. -/
def split_dots_aux : List Char → List Char → List String
  | [], acc => [String.mk acc.reverse]
  | c :: rest, acc =>
      if c = '.' then String.mk acc.reverse :: split_dots_aux rest []
      else split_dots_aux rest (c :: acc)

/-- Dotted-path segmentation (non-empty segments). -/
def split_dots (s : String) : List String :=
  (split_dots_aux s.data []).filter (fun p => p ≠ "")

/-- `interp::resolve_token`: direct context resolve, then the `input.`
fallbacks. -/
def resolve_token (ctx : Json) (token : String) : Option Json :=
  let parts := split_dots token
  if parts.isEmpty then none
  else
    match resolve_path ctx parts with
    | some v => some v
    | none =>
        if parts.length = 1 then resolve_path ctx ("input" :: parts)
        else if (parts.head?.getD "") ≠ "input" then resolve_path ctx ("input" :: parts)
        else none

/-- Left-to-right non-overlapping substring replacement (`str::replace`);
`fuel` only bounds the recursion (each step consumes at least one character,
so the wrapper's `hay.length` is always enough). -/
def replace_go (pat repl : List Char) : Nat → List Char → List Char
  | _, [] => []
  | 0, hay => hay
  | fuel + 1, c :: rest =>
      if pat.isPrefixOf (c :: rest) && !pat.isEmpty then
        repl ++ replace_go pat repl fuel (rest.drop (pat.length - 1))
      else c :: replace_go pat repl fuel rest

/-- String-level wrapper for `replace_go`. -/
def str_replace (s pat repl : String) : String :=
  String.mk (replace_go pat.data repl.data s.data.length s.data)

/-- First index at which `pat` occurs as a substring (`str::find`). -/
def find_sub_idx (pat : List Char) : List Char → Option Nat
  | [] => if pat.isEmpty then some 0 else none
  | c :: rest =>
      if pat.isPrefixOf (c :: rest) then some 0
      else (find_sub_idx pat rest).map (fun i => i + 1)

/-- `str::trim` (whitespace from both ends). -/
def str_trim (s : String) : String :=
  String.mk (((s.data.dropWhile Char.isWhitespace).reverse.dropWhile Char.isWhitespace).reverse)

/-- Opening brace character. -/
def lbrace : Char := Char.ofNat 123

/-- Closing brace character. -/
def rbrace : Char := Char.ofNat 125

/-- Token resolution inside `interpolate_str`'s scanning loop: the special
tokens, then `resolve_token`; non-string values render compactly. -/
def interp_resolve (ctx : Json) (proofOpt : Option Proof) (nowStr txId : String)
    (token : String) : Option String :=
  match token with
  | "now" => some nowStr
  | "tx_id" => some txId
  | "proof.failed_gates" => proofOpt.map (fun p => render_failed_gates p.failed_gates)
  | _ =>
      (resolve_token ctx token).map (fun v =>
        match v.asStr with
        | some s => s
        | none => render_json v)

/-- One delimiter pass of `interpolate_str`: find open, find close after it,
substitute the resolved token (or strip the braces keeping the trimmed token
text), repeat.  The source loop has no bound and can diverge when
substitutions reintroduce delimiters; the model bounds it with fuel, which
no modelled template exhausts. -/
def interp_pass (resolver : String → Option String) (openT closeT : List Char) :
    Nat → List Char → List Char
  | 0, out => out
  | fuel + 1, out =>
      match find_sub_idx openT out with
      | none => out
      | some start =>
          let rest := out.drop (start + openT.length)
          match find_sub_idx closeT rest with
          | none => out
          | some endRel =>
              let token := str_trim (String.mk (rest.take endRel))
              let keep :=
                match resolver token with
                | some s => s.data
                | none => token.data
              interp_pass resolver openT closeT fuel
                (out.take start ++ keep ++ rest.drop (endRel + closeT.length))

/-- `interp::interpolate_str` (`interp.rs`): special-token pre-replacement in
source order, then the `(open, close)` scanning passes for single and double
braces. -/
def interpolate_str (template : String) (ctx : Json) (proofOpt : Option Proof)
    (meta : ExecMeta) : String :=
  let nowStr := now_rfc3339 meta
  let fg := proofOpt.map (fun p => render_failed_gates p.failed_gates)
  let s1 := str_replace template "\x7bnow\x7d" nowStr
  let s2 := str_replace s1 "\x7b\x7bnow\x7d\x7d" nowStr
  let s3 := str_replace s2 "\x7btx_id\x7d" meta.tx_id
  let s4 := str_replace s3 "\x7b\x7btx_id\x7d\x7d" meta.tx_id
  let s5 :=
    match fg with
    | some f => str_replace (str_replace s4 "\x7bproof.failed_gates\x7d" f)
        "\x7b\x7bproof.failed_gates\x7d\x7d" f
    | none => s4
  let resolver := interp_resolve ctx proofOpt nowStr meta.tx_id
  let p1 := interp_pass resolver [lbrace] [rbrace] (s5.data.length + 1000) s5.data
  let p2 := interp_pass resolver [lbrace, lbrace] [rbrace, rbrace] (p1.length + 1000) p1
  String.mk p2

mutual

/-- `interp::interpolate_value`: recursive interpolation of strings inside a
JSON value. -/
def interpolate_value (v : Json) (ctx : Json) (proofOpt : Option Proof)
    (meta : ExecMeta) : Json :=
  match v with
  | .str s => .str (interpolate_str s ctx proofOpt meta)
  | .arr xs => .arr (interpolate_list xs ctx proofOpt meta)
  | .obj kvs => .obj (interpolate_kvs kvs ctx proofOpt meta)
  | other => other

/-- Interpolation over array elements. -/
def interpolate_list (xs : List Json) (ctx : Json) (proofOpt : Option Proof)
    (meta : ExecMeta) : List Json :=
  match xs with
  | [] => []
  | x :: rest => interpolate_value x ctx proofOpt meta :: interpolate_list rest ctx proofOpt meta

/-- Interpolation over object fields. -/
def interpolate_kvs (kvs : List (String × Json)) (ctx : Json) (proofOpt : Option Proof)
    (meta : ExecMeta) : List (String × Json) :=
  match kvs with
  | [] => []
  | (k, v) :: rest =>
      (k, interpolate_value v ctx proofOpt meta) :: interpolate_kvs rest ctx proofOpt meta

end

/-- `ledger::get_path`: dotted-path lookup over the entity tree (the same
walk as `Kernel::resolve_path`). -/
def get_path (root : Json) (path : String) : Option Json :=
  resolve_path root (split_dots path)

/-- Recursive core of `ledger::set_path`: write at the leaf (parent must be
an object), auto-creating intermediate objects and replacing non-objects on
the way with fresh objects. -/
def set_path_go (cur : Json) (parts : List String) (val : Json) :
    Except UblError Json :=
  match parts with
  | [] => .error (.state "empty_path")
  | [p] =>
      match cur with
      | .obj fields => .ok (.obj (ainsert p val fields))
      | _ => .error (.state "set_path_non_object")
  | p :: rest =>
      match cur with
      | .obj fields =>
          let child0 := (alookup p fields).getD (Json.obj [])
          let child := if child0.isObj then child0 else Json.obj []
          match set_path_go child rest val with
          | .ok c2 => .ok (.obj (ainsert p c2 fields))
          | .error e => .error e
      | _ => .error (.state "set_path_non_object")

/-- `ledger::set_path`. -/
def set_path (root : Json) (path : String) (val : Json) : Except UblError Json :=
  let parts := split_dots path
  if parts.isEmpty then .error (.state "empty_path")
  else set_path_go root parts val

/-- Recursive core of `ledger::delete_path`: remove the leaf key when the
walk succeeds; any missing step or non-object is a no-op. -/
def delete_path_go (cur : Json) (parts : List String) : Json :=
  match parts with
  | [] => cur
  | [p] =>
      match cur with
      | .obj fields => .obj (aremove p fields)
      | _ => cur
  | p :: rest =>
      match cur with
      | .obj fields =>
          match alookup p fields with
          | some c => .obj (ainsert p (delete_path_go c rest) fields)
          | none => cur
      | _ => cur

/-- `ledger::delete_path` (always succeeds in the source; the `Result` is
vacuous and dropped here). -/
def delete_path (root : Json) (path : String) : Json :=
  delete_path_go root (split_dots path)

/-- `ledger::ensure_obj_path`: force each step of the path to an object,
erring when the walk starts from (or insertion would target) a
non-object. -/
def ensure_obj_path (cur : Json) (parts : List String) : Except UblError Json :=
  match parts with
  | [] => .ok cur
  | p :: rest =>
      match cur with
      | .obj fields =>
          let child0 := (alookup p fields).getD (Json.obj [])
          let child := if child0.isObj then child0 else Json.obj []
          match ensure_obj_path child rest with
          | .ok c2 => .ok (.obj (ainsert p c2 fields))
          | .error e => .error e
      | _ => .error (.state "ensure_obj_path_non_object")

/-- `ledger::lit`: literal expression wrapper. -/
def lit (value : Json) : Expr := .literal value

/-- One iteration of the effect loop of `apply_transaction` (`ledger.rs`
lines 161-240): apply a single effect to the working copy of the entity
tree, returning the new tree and the concretized effect pushed onto
`applied`; a `fail` effect or any path/entity error aborts the loop with
the error. -/
def apply_effect_step (proof : Proof) (meta : ExecMeta) (eff : Effect)
    (root : Json) : Except UblError (Json × Effect) :=
  match eff with
  | .fail message => .error (.validation ("program_fail: " ++ message))
  | .emit event data =>
      let ev := interpolate_str event proof.context_snapshot (some proof) meta
      let d := interpolate_value data proof.context_snapshot (some proof) meta
      .ok (root, .emit ev d)
  | .create entity_type id data =>
      let idv := eval_expr id proof.context_snapshot meta.execution_time
      let id_str :=
        match idv.asStr with
        | some s => s
        | none => render_json idv
      if ((root.get entity_type).bind (fun c => c.get id_str)).isSome then
        .error (.validation ("entity_exists: " ++ entity_type ++ "." ++ id_str))
      else
        let resolved := interpolate_value data proof.context_snapshot (some proof) meta
        match ensure_obj_path root [entity_type] with
        | .error e => .error e
        | .ok root1 =>
            let root2 :=
              match root1 with
              | .obj fields =>
                  match alookup entity_type fields with
                  | some (Json.obj coll) =>
                      Json.obj (ainsert entity_type
                        (Json.obj (ainsert id_str resolved coll)) fields)
                  | _ => root1
              | _ => root1
            .ok (root2, .create entity_type (lit (Json.str id_str)) resolved)
  | .delete target =>
      let t := interpolate_str target proof.context_snapshot (some proof) meta
      .ok (delete_path root t, .delete t)
  | .set target value =>
      let t := interpolate_str target proof.context_snapshot (some proof) meta
      let raw := eval_expr value proof.context_snapshot meta.execution_time
      let v := interpolate_value raw proof.context_snapshot (some proof) meta
      match set_path root t v with
      | .error e => .error e
      | .ok root2 => .ok (root2, .set t (lit v))
  | .increment target amount =>
      let t := interpolate_str target proof.context_snapshot (some proof) meta
      let a0 := eval_expr amount proof.context_snapshot meta.execution_time
      let a1 := interpolate_value a0 proof.context_snapshot (some proof) meta
      let a := (as_f64 a1).getD ⟨0, 1⟩
      let curr := ((get_path root t).bind as_f64).getD ⟨0, 1⟩
      match set_path root t (Json.num (Qv.add curr a)) with
      | .error e => .error e
      | .ok root2 => .ok (root2, .increment t (lit (Json.num a)))
  | .decrement target amount =>
      let t := interpolate_str target proof.context_snapshot (some proof) meta
      let a0 := eval_expr amount proof.context_snapshot meta.execution_time
      let a1 := interpolate_value a0 proof.context_snapshot (some proof) meta
      let a := (as_f64 a1).getD ⟨0, 1⟩
      let curr := ((get_path root t).bind as_f64).getD ⟨0, 1⟩
      match set_path root t (Json.num (Qv.sub curr a)) with
      | .error e => .error e
      | .ok root2 => .ok (root2, .decrement t (lit (Json.num a)))
  | .append target value =>
      let t := interpolate_str target proof.context_snapshot (some proof) meta
      let raw := eval_expr value proof.context_snapshot meta.execution_time
      let v := interpolate_value raw proof.context_snapshot (some proof) meta
      let arr := ((get_path root t).bind Json.asArr).getD []
      match set_path root t (Json.arr (arr ++ [v])) with
      | .error e => .error e
      | .ok root2 => .ok (root2, .append t (lit v))
  | .remove target value =>
      let t := interpolate_str target proof.context_snapshot (some proof) meta
      let raw := eval_expr value proof.context_snapshot meta.execution_time
      let v := interpolate_value raw proof.context_snapshot (some proof) meta
      let arr := ((get_path root t).bind Json.asArr).getD []
      match set_path root t (Json.arr (arr.filter (fun x => x ≠ v))) with
      | .error e => .error e
      | .ok root2 => .ok (root2, .remove t (lit v))

/-- The full effect loop: fold `apply_effect_step` over the effect list,
accumulating the concretized `applied_effects` in order. -/
def apply_effects (proof : Proof) (meta : ExecMeta) :
    List Effect → Json → List Effect → Except UblError (Json × List Effect)
  | [], root, applied => .ok (root, applied)
  | eff :: rest, root, applied =>
      match apply_effect_step proof meta eff root with
      | .error e => .error e
      | .ok ra => apply_effects proof meta rest ra.1 (applied ++ [ra.2])

/-- The body of `apply_transaction` after the optimistic version check
(`ledger.rs` lines 158-275): run the effect loop on a working copy of the
root; on success build the hash-chained record (its `record_hash` computed
with `record_hash`/`record_signature` cleared, then optionally signed) and
publish root, version and history in one step.  Errors leave the state
untouched, as the source returns before any `st.*` assignment.  Durable
persistence (`commit`) is I/O outside the pure model. -/
def apply_tail (st : LedgerState) (program_hash input_hash : String)
    (proof : Proof) (effects : List Effect) (meta : ExecMeta)
    (keys : KeyMaterial) : Except UblError EffectRecord × LedgerState :=
  match apply_effects proof meta effects st.root [] with
  | .error e => (.error e, st)
  | .ok ra =>
      let v := st.meta.version
      let prev_hash := (st.history.getLast?).map (fun r => r.record_hash)
      let new_version := v + 1
      let record0 : EffectRecord :=
        { id := meta.tx_id,
          version_applied_to := v,
          resulting_version := new_version,
          timestamp := now_rfc3339 meta,
          program_hash := program_hash,
          input_hash := input_hash,
          proof_hash := proof.proof_hash,
          applied_effects := ra.2,
          previous_record_hash := prev_hash,
          record_hash := .str "",
          record_signature := none }
      let rh := record_hash_of record0
      let record := { record0 with record_hash := rh, record_signature := sign_b64 keys rh }
      (.ok record,
        { st with
            root := ra.1,
            meta := { st.meta with version := new_version },
            history := st.history ++ [record] })

/-- `Ledger::apply_transaction` (`ledger.rs`): optimistic version check then
the transactional body.  The state is threaded explicitly (the source
mutates behind a writer lock). -/
def apply_transaction (st : LedgerState) (program_hash input_hash : String)
    (target_version : Option Nat) (proof : Proof) (effects : List Effect)
    (meta : ExecMeta) (keys : KeyMaterial) :
    Except UblError EffectRecord × LedgerState :=
  match target_version with
  | some tv =>
      if tv ≠ st.meta.version then
        (.error (.validation ("version_conflict: expected " ++ toString tv ++
          ", got " ++ toString st.meta.version)), st)
      else apply_tail st program_hash input_hash proof effects meta keys
  | none => apply_tail st program_hash input_hash proof effects meta keys

/-- `Ledger::register_chip` (`ledger.rs`): recompute the canonical hash,
reject a name already bound to a different hash (the source's message also
embeds the two hex hashes, elided here), otherwise (re-)insert both the
name index entry and the chip-by-hash entry. -/
def register_chip (st : LedgerState) (chip : Chip) :
    Except UblError HashVal × LedgerState :=
  let computed := compute_chip_hash chip
  let chip2 := { chip with hash := computed }
  match alookup chip.name st.registry.chip_names with
  | some existing =>
      if existing ≠ computed then
        (.error (.validation ("chip_name_conflict: name=" ++ chip.name)), st)
      else
        (.ok computed,
          { st with registry :=
              { st.registry with
                  chip_names := ainsert chip.name computed st.registry.chip_names,
                  chips := ainsert computed chip2 st.registry.chips } })
  | none =>
      (.ok computed,
        { st with registry :=
            { st.registry with
                chip_names := ainsert chip.name computed st.registry.chip_names,
                chips := ainsert computed chip2 st.registry.chips } })

/-- `Ledger::new` on a fresh store: version 0, empty registry and history,
empty entity tree; `created_at` is the mount-time clock string. -/
def initial_state (created_at : String) : LedgerState :=
  { meta := { version := 0, created_at := created_at },
    registry := { chips := [], chip_names := [], programs := [] },
    root := Json.obj [],
    history := [] }

theorem run_gates_length (chip : Chip) (ctx : Json) (t : Int) :
    (run_gates chip ctx t).length = chip.gates.length := by
  simp [run_gates]

theorem execute_final_eq (chip : Chip) (ctx : Json) (meta : ExecMeta) (keys : KeyMaterial) :
    (execute_chip_signed chip ctx meta keys).final_result =
      composed_result (resolve_composition chip.composition) chip.gates.length
        (run_gates chip ctx meta.execution_time) := rfl

theorem execute_gates_eq (chip : Chip) (ctx : Json) (meta : ExecMeta) (keys : KeyMaterial) :
    (execute_chip_signed chip ctx meta keys).gates =
      run_gates chip ctx meta.execution_time := rfl

theorem composed_result_ALL (comp : CompositionDef) (n : Nat) (gates : List GateResult)
    (hk : comp.kind = .ALL) (hl : gates.length = n) :
    (composed_result comp n gates = 1 ↔
      (gates.countP (fun g => g.result) = n ∧ 0 < n)) := by
  have hc := @List.countP_le_length _ (fun g => g.result) gates
  simp only [composed_result, hk, hl]
  rcases Nat.eq_zero_or_pos n with hz | hp
  · subst hz
    simp only [Nat.max_eq_right (by omega : 0 ≤ 1)]
    constructor
    · intro h
      split at h
      · omega
      · omega
    · intro h
      omega
  · rw [Nat.max_eq_left (by omega : 1 ≤ n)]
    constructor
    · intro h
      split at h
      · exact ⟨by assumption, hp⟩
      · omega
    · intro h
      rw [if_pos h.1]

theorem composed_result_ANY (comp : CompositionDef) (n : Nat) (gates : List GateResult)
    (hk : comp.kind = .ANY) :
    (composed_result comp n gates = 1 ↔ 0 < gates.countP (fun g => g.result)) := by
  simp only [composed_result, hk]
  constructor
  · intro h
    split at h
    · omega
    · omega
  · intro h
    rw [if_pos h]

theorem composed_result_MAJORITY (comp : CompositionDef) (n : Nat) (gates : List GateResult)
    (hk : comp.kind = .MAJORITY) (hl : gates.length = n) :
    (composed_result comp n gates = 1 ↔ 2 * gates.countP (fun g => g.result) > n) := by
  have hc := @List.countP_le_length _ (fun g => g.result) gates
  simp only [composed_result, hk, hl]
  rcases Nat.eq_zero_or_pos n with hz | hp
  · subst hz
    simp only [Nat.max_eq_right (by omega : 0 ≤ 1)]
    constructor
    · intro h
      split at h
      · omega
      · omega
    · intro h
      omega
  · rw [Nat.max_eq_left (by omega : 1 ≤ n)]
    constructor
    · intro h
      split at h
      · omega
      · omega
    · intro h
      rw [if_pos (by omega)]

/-- C8: for the operators `>`, `<`, `>=`, `<=`, `compare_strict` returns the
numeric comparison of the two coerced operands when both coerce (floats, or
integers widened), and `false` whenever either operand is non-numeric
(string, boolean, null, array or object — exactly the values `as_f64`
rejects). -/
theorem compare_numeric_ops (op : CompareOp) (l r : Json)
    (hop : op = .gt ∨ op = .lt ∨ op = .ge ∨ op = .le) :
    (∀ a b, as_f64 l = some a → as_f64 r = some b →
      compare_strict op l r =
        (match op with
         | .gt => Qv.blt b a
         | .lt => Qv.blt a b
         | .ge => Qv.ble b a
         | .le => Qv.ble a b
         | _ => false)) ∧
    ((as_f64 l = none ∨ as_f64 r = none) → compare_strict op l r = false) := by
  constructor
  · intro a b ha hb
    rcases hop with h | h | h | h <;> subst h <;>
      simp only [compare_strict, ha, hb]
  · intro hn
    rcases hop with h | h | h | h <;> subst h <;>
      rcases hn with hn | hn <;>
      simp only [compare_strict, hn] <;>
      cases hl2 : as_f64 l <;> cases hr2 : as_f64 r <;> simp_all

theorem compare_numeric_ops_witness :
    compare_strict .gt (Json.num ⟨3, 1⟩) (Json.num ⟨2, 1⟩) = Qv.blt ⟨2, 1⟩ ⟨3, 1⟩ ∧
    compare_strict .lt (Json.str "5") (Json.num ⟨2, 1⟩) = false :=
  ⟨(compare_numeric_ops .gt _ _ (Or.inl rfl)).1 _ _ rfl rfl,
   (compare_numeric_ops .lt _ _ (Or.inr (Or.inl rfl))).2 (Or.inl rfl)⟩

/-- C5 (amended): with N the gate count and K the number of passing gates in
the produced proof, ANY yields `final_result = 1` iff K > 0 and MAJORITY iff
2K > N, for every N including 0; ALL yields 1 iff K = N **and N > 0** — for
the empty gate list the source clamps the total to 1, so ALL yields 0 even
though K = N = 0. -/
theorem composition_count_semantics (chip : Chip) (ctx : Json) (meta : ExecMeta)
    (keys : KeyMaterial) :
    (((resolve_composition chip.composition).kind = .ALL →
       ((execute_chip_signed chip ctx meta keys).final_result = 1 ↔
         ((execute_chip_signed chip ctx meta keys).gates.countP (fun g => g.result) =
            chip.gates.length ∧ 0 < chip.gates.length))) ∧
     ((resolve_composition chip.composition).kind = .ANY →
       ((execute_chip_signed chip ctx meta keys).final_result = 1 ↔
         0 < (execute_chip_signed chip ctx meta keys).gates.countP (fun g => g.result))) ∧
     ((resolve_composition chip.composition).kind = .MAJORITY →
       ((execute_chip_signed chip ctx meta keys).final_result = 1 ↔
         2 * (execute_chip_signed chip ctx meta keys).gates.countP (fun g => g.result) >
           chip.gates.length))) := by
  rw [execute_final_eq, execute_gates_eq]
  refine ⟨fun hk => ?_, fun hk => ?_, fun hk => ?_⟩
  · exact composed_result_ALL _ _ _ hk (run_gates_length chip ctx meta.execution_time)
  · exact composed_result_ANY _ _ _ hk
  · exact composed_result_MAJORITY _ _ _ hk (run_gates_length chip ctx meta.execution_time)

theorem composition_count_semantics_witness :
    (execute_chip_signed ⟨"w5", "", [⟨"g", "", lit (Json.bool true)⟩],
        ChipComposition.shorthand "ANY", HashVal.str ""⟩ Json.null ⟨"t", 0⟩
        ⟨none, none⟩).final_result = 1 :=
  ((composition_count_semantics ⟨"w5", "", [⟨"g", "", lit (Json.bool true)⟩],
      ChipComposition.shorthand "ANY", HashVal.str ""⟩ Json.null ⟨"t", 0⟩
      ⟨none, none⟩).2.1 rfl).mpr (by decide)

/-- C5 counterexample: a chip with zero gates under ALL composition has
K = N (both are 0) yet `final_result = 0`, because the source clamps the
gate total to a minimum of 1 — refuting the claimed `final = 1 ↔ K = N` at
N = 0. -/
theorem composition_count_counterexample :
    (resolve_composition (⟨"c5", "", [], ChipComposition.shorthand "ALL",
        HashVal.str ""⟩ : Chip).composition).kind = .ALL ∧
    (execute_chip_signed ⟨"c5", "", [], ChipComposition.shorthand "ALL", HashVal.str ""⟩
        Json.null ⟨"t", 0⟩ ⟨none, none⟩).gates.countP (fun g => g.result) =
      (⟨"c5", "", [], ChipComposition.shorthand "ALL", HashVal.str ""⟩ : Chip).gates.length ∧
    (execute_chip_signed ⟨"c5", "", [], ChipComposition.shorthand "ALL", HashVal.str ""⟩
        Json.null ⟨"t", 0⟩ ⟨none, none⟩).final_result = 0 := by
  decide

/-- C6: WEIGHTED composition yields `final_result = 0` when the weight
vector's length differs from the gate count, and otherwise yields 1 exactly
when the sum of the weights of passing gates strictly exceeds the threshold
(equality yields 0, by strictness of `Qv.blt`). -/
theorem weighted_composition_semantics (chip : Chip) (ctx : Json) (meta : ExecMeta)
    (keys : KeyMaterial)
    (hk : (resolve_composition chip.composition).kind = .WEIGHTED) :
    (((resolve_composition chip.composition).weights.length ≠ chip.gates.length →
        (execute_chip_signed chip ctx meta keys).final_result = 0) ∧
     ((resolve_composition chip.composition).weights.length = chip.gates.length →
        ((execute_chip_signed chip ctx meta keys).final_result = 1 ↔
          Qv.blt (resolve_composition chip.composition).threshold
            (weighted_sum (resolve_composition chip.composition).weights
              (run_gates chip ctx meta.execution_time)) = true))) := by
  rw [execute_final_eq]
  simp only [composed_result, hk]
  constructor
  · intro hne
    rw [if_pos hne]
  · intro heq
    rw [if_neg (by simp [heq])]
    constructor
    · intro h
      split at h
      · assumption
      · omega
    · intro h
      rw [if_pos h]

theorem weighted_composition_semantics_witness :
    (execute_chip_signed ⟨"w6", "", [⟨"g", "", lit (Json.bool true)⟩],
        ChipComposition.full ⟨.WEIGHTED, [⟨1, 1⟩], ⟨1, 2⟩⟩, HashVal.str ""⟩
        Json.null ⟨"t", 0⟩ ⟨none, none⟩).final_result = 1 :=
  ((weighted_composition_semantics ⟨"w6", "", [⟨"g", "", lit (Json.bool true)⟩],
      ChipComposition.full ⟨.WEIGHTED, [⟨1, 1⟩], ⟨1, 2⟩⟩, HashVal.str ""⟩
      Json.null ⟨"t", 0⟩ ⟨none, none⟩ rfl).2 rfl).mpr (by decide)

/-- C9: a chip with an empty gate list yields `final_result = 0` under every
count-based composition (the total is clamped to 1 while zero gates pass) and
under WEIGHTED with an empty weight vector and threshold 0 (the zero sum is
not strictly above the threshold). -/
theorem empty_chip_zero (chip : Chip) (ctx : Json) (meta : ExecMeta) (keys : KeyMaterial)
    (hg : chip.gates = [])
    (hc : (resolve_composition chip.composition).kind = .ALL ∨
          (resolve_composition chip.composition).kind = .ANY ∨
          (resolve_composition chip.composition).kind = .MAJORITY ∨
          ((resolve_composition chip.composition).kind = .WEIGHTED ∧
           (resolve_composition chip.composition).weights = [] ∧
           (resolve_composition chip.composition).threshold = ⟨0, 1⟩)) :
    (execute_chip_signed chip ctx meta keys).final_result = 0 := by
  rw [execute_final_eq]
  have hrg : run_gates chip ctx meta.execution_time = [] := by
    simp [run_gates, hg]
  rw [hrg, hg]
  rcases hc with hk | hk | hk | ⟨hk, hw, hth⟩
  · simp [composed_result, hk]
  · simp [composed_result, hk]
  · simp [composed_result, hk]
  · simp [composed_result, hk, hw, hth]
    decide

theorem empty_chip_zero_witness :
    (execute_chip_signed ⟨"w9", "", [], ChipComposition.full ⟨.WEIGHTED, [], ⟨0, 1⟩⟩,
        HashVal.str ""⟩ Json.null ⟨"t", 0⟩ ⟨none, none⟩).final_result = 0 :=
  empty_chip_zero _ Json.null ⟨"t", 0⟩ ⟨none, none⟩ rfl
    (Or.inr (Or.inr (Or.inr ⟨rfl, rfl, rfl⟩)))

/-- C4: `apply_transaction` with a supplied `target_version` differing from
the current version rejects with the `version_conflict` validation message
(which starts with `version_conflict`) and returns the state unchanged; with
a matching or absent `target_version` the check passes through to the
transaction body `apply_tail` unchanged. -/
theorem version_check_semantics (st : LedgerState) (ph ih : String) (tv : Nat)
    (proof : Proof) (effects : List Effect) (meta : ExecMeta) (keys : KeyMaterial) :
    ((tv ≠ st.meta.version →
        apply_transaction st ph ih (some tv) proof effects meta keys =
          (.error (.validation ("version_conflict: expected " ++ toString tv ++
            ", got " ++ toString st.meta.version)), st)) ∧
     (tv = st.meta.version →
        apply_transaction st ph ih (some tv) proof effects meta keys =
          apply_tail st ph ih proof effects meta keys) ∧
     (apply_transaction st ph ih none proof effects meta keys =
        apply_tail st ph ih proof effects meta keys)) := by
  refine ⟨fun hne => ?_, fun heq => ?_, rfl⟩
  · simp only [apply_transaction]
    rw [if_pos hne]
  · simp only [apply_transaction]
    rw [if_neg (by simp [heq])]

theorem version_check_semantics_witness :
    apply_transaction (initial_state "c") "p" "i" (some 1)
        ⟨HashVal.str "", "", Json.null, [], [], 0, HashVal.str "", none⟩ []
        ⟨"t", 0⟩ ⟨none, none⟩ =
      (.error (.validation ("version_conflict: expected " ++ toString 1 ++
        ", got " ++ toString (initial_state "c").meta.version)), initial_state "c") :=
  (version_check_semantics (initial_state "c") "p" "i" 1
    ⟨HashVal.str "", "", Json.null, [], [], 0, HashVal.str "", none⟩ []
    ⟨"t", 0⟩ ⟨none, none⟩).1 (by decide)

theorem ainsert_self {α β : Type} [DecidableEq α] (k : α) (v : β) :
    ∀ l : List (α × β), alookup k l = some v → ainsert k v l = l := by
  intro l
  induction l with
  | nil => intro h; simp [alookup] at h
  | cons hd tl ih =>
      intro h
      obtain ⟨k2, v2⟩ := hd
      unfold alookup at h
      unfold ainsert
      by_cases hk : k2 = k
      · rw [if_pos hk] at h ⊢
        injection h with h2
        subst hk
        subst h2
        rfl
      · rw [if_neg hk] at h ⊢
        rw [ih h]

/-- C7: `register_chip` on a name already bound to a *different* canonical
hash rejects with the `chip_name_conflict` validation error and leaves the
state unchanged — and those are the only error returns; on a name bound to
the same canonical hash whose chip entry already holds the (re-hashed)
submitted chip, it succeeds with that hash and the re-insertions leave the
state unchanged. -/
theorem register_chip_semantics (st : LedgerState) (chip : Chip) :
    ((∀ h, alookup chip.name st.registry.chip_names = some h →
        h ≠ compute_chip_hash chip →
        register_chip st chip =
          (.error (.validation ("chip_name_conflict: name=" ++ chip.name)), st)) ∧
     (alookup chip.name st.registry.chip_names = some (compute_chip_hash chip) →
      alookup (compute_chip_hash chip) st.registry.chips =
        some { chip with hash := compute_chip_hash chip } →
      register_chip st chip = (.ok (compute_chip_hash chip), st)) ∧
     (∀ e st2, register_chip st chip = (.error e, st2) →
        st2 = st ∧ e = .validation ("chip_name_conflict: name=" ++ chip.name) ∧
        ∃ h, alookup chip.name st.registry.chip_names = some h ∧
          h ≠ compute_chip_hash chip)) := by
  have hconf : ∀ h, alookup chip.name st.registry.chip_names = some h →
      h ≠ compute_chip_hash chip →
      register_chip st chip =
        (.error (.validation ("chip_name_conflict: name=" ++ chip.name)), st) := by
    intro h hl hne
    simp only [register_chip, hl]
    rw [if_pos hne]
  have hnoop : alookup chip.name st.registry.chip_names = some (compute_chip_hash chip) →
      alookup (compute_chip_hash chip) st.registry.chips =
        some { chip with hash := compute_chip_hash chip } →
      register_chip st chip = (.ok (compute_chip_hash chip), st) := by
    intro hl hc
    simp only [register_chip, hl]
    rw [if_neg (by simp)]
    rw [ainsert_self _ _ _ hl, ainsert_self _ _ _ hc]
  refine ⟨hconf, hnoop, fun e st2 hr => ?_⟩
  rcases halo : alookup chip.name st.registry.chip_names with _ | h
  · simp only [register_chip, halo] at hr
    simp at hr
  · by_cases hne : h = compute_chip_hash chip
    · subst hne
      simp only [register_chip, halo] at hr
      rw [if_neg (by simp)] at hr
      simp at hr
    · have heq := hconf h halo hne
      rw [heq] at hr
      injection hr with h1 h2
      injection h1 with h1e
      exact ⟨h2.symm, h1e.symm, h, rfl, hne⟩

theorem register_chip_semantics_witness :
    register_chip ((register_chip (initial_state "c")
        ⟨"n", "", [], ChipComposition.shorthand "ALL", HashVal.str ""⟩).2)
        ⟨"n", "", [], ChipComposition.shorthand "ALL", HashVal.str ""⟩ =
      (.ok (compute_chip_hash ⟨"n", "", [], ChipComposition.shorthand "ALL", HashVal.str ""⟩),
       (register_chip (initial_state "c")
        ⟨"n", "", [], ChipComposition.shorthand "ALL", HashVal.str ""⟩).2) ∧
    register_chip ((register_chip (initial_state "c")
        ⟨"n", "", [], ChipComposition.shorthand "ALL", HashVal.str ""⟩).2)
        ⟨"n", "other", [], ChipComposition.shorthand "ALL", HashVal.str ""⟩ =
      (.error (.validation ("chip_name_conflict: name=" ++ "n")),
       (register_chip (initial_state "c")
        ⟨"n", "", [], ChipComposition.shorthand "ALL", HashVal.str ""⟩).2) :=
  ⟨(register_chip_semantics _ _).2.1 (by decide) (by decide),
   (register_chip_semantics _ _).1
     (compute_chip_hash ⟨"n", "", [], ChipComposition.shorthand "ALL", HashVal.str ""⟩)
     (by decide) (by decide)⟩

theorem apply_effects_append (proof : Proof) (meta : ExecMeta) (l1 l2 : List Effect) :
    ∀ root applied, apply_effects proof meta (l1 ++ l2) root applied =
      (match apply_effects proof meta l1 root applied with
       | .ok ra => apply_effects proof meta l2 ra.1 ra.2
       | .error e => .error e) := by
  induction l1 with
  | nil => intro root applied; simp [apply_effects]
  | cons eff rest ih =>
      intro root applied
      rw [List.cons_append]
      simp only [apply_effects]
      cases apply_effect_step proof meta eff root with
      | error e => rfl
      | ok ra => exact ih ra.1 (applied ++ [ra.2])

theorem apply_tail_error_state (st : LedgerState) (ph ih : String) (proof : Proof)
    (effects : List Effect) (meta : ExecMeta) (keys : KeyMaterial) (e : UblError) :
    apply_effects proof meta effects st.root [] = .error e →
    apply_tail st ph ih proof effects meta keys = (.error e, st) := by
  intro h
  simp only [apply_tail, h]

/-- C3 (amended): a `fail` effect anywhere in the list makes
`apply_transaction` return an error with the ledger state unchanged, no
matter what precedes it; the error is the validation error carrying the fail
message (`program_fail: <message>`) provided the version check passes and the
effects preceding the fail all apply — an earlier failing effect (or a
version conflict) reports its own error instead, still leaving the state
unchanged. -/
theorem fail_effect_atomic (st : LedgerState) (ph ih : String) (tv : Option Nat)
    (proof : Proof) (pre rest : List Effect) (m : String) (meta : ExecMeta)
    (keys : KeyMaterial) :
    ((∃ e, apply_transaction st ph ih tv proof (pre ++ Effect.fail m :: rest) meta keys =
        (.error e, st)) ∧
     ((tv = none ∨ tv = some st.meta.version) →
      (∃ ra, apply_effects proof meta pre st.root [] = .ok ra) →
      apply_transaction st ph ih tv proof (pre ++ Effect.fail m :: rest) meta keys =
        (.error (.validation ("program_fail: " ++ m)), st))) := by
  have htail : ∃ e, apply_tail st ph ih proof (pre ++ Effect.fail m :: rest) meta keys =
      (.error e, st) := by
    cases hpre : apply_effects proof meta pre st.root [] with
    | error e =>
        refine ⟨e, apply_tail_error_state _ _ _ _ _ _ _ _ ?_⟩
        rw [apply_effects_append, hpre]
    | ok ra =>
        refine ⟨.validation ("program_fail: " ++ m),
          apply_tail_error_state _ _ _ _ _ _ _ _ ?_⟩
        rw [apply_effects_append, hpre]
        rfl
  have htail2 : (∃ ra, apply_effects proof meta pre st.root [] = .ok ra) →
      apply_tail st ph ih proof (pre ++ Effect.fail m :: rest) meta keys =
        (.error (.validation ("program_fail: " ++ m)), st) := by
    rintro ⟨ra, hpre⟩
    refine apply_tail_error_state _ _ _ _ _ _ _ _ ?_
    rw [apply_effects_append, hpre]
    rfl
  constructor
  · cases tv with
    | none => exact htail
    | some v =>
        by_cases hv : v = st.meta.version
        · simp only [apply_transaction]
          rw [if_neg (by simp [hv])]
          exact htail
        · exact ⟨_, by simp only [apply_transaction]; rw [if_pos hv]⟩
  · rintro hv hpre
    rcases hv with hv | hv
    · subst hv
      exact htail2 hpre
    · subst hv
      simp only [apply_transaction]
      rw [if_neg (by simp)]
      exact htail2 hpre

theorem fail_effect_atomic_witness :
    apply_transaction (initial_state "c") "p" "i" none
        ⟨HashVal.str "", "", Json.null, [], [], 0, HashVal.str "", none⟩
        ([Effect.set "x" (lit (Json.num ⟨1, 1⟩))] ++ Effect.fail "boom" :: [])
        ⟨"t", 0⟩ ⟨none, none⟩ =
      (.error (.validation ("program_fail: " ++ "boom")), initial_state "c") :=
  (fail_effect_atomic (initial_state "c") "p" "i" none
    ⟨HashVal.str "", "", Json.null, [], [], 0, HashVal.str "", none⟩
    [Effect.set "x" (lit (Json.num ⟨1, 1⟩))] [] "boom" ⟨"t", 0⟩ ⟨none, none⟩).2
    (Or.inl rfl) ⟨_, rfl⟩

/-- C3 counterexample: with an effect list still containing a `fail` (in
second position), a preceding `create` of an already-existing entity makes
`apply_transaction` return the `entity_exists` validation error, not one
carrying the fail message — refuting the claim that the returned error
always carries the fail message.  (The state is still returned unchanged.) -/
theorem fail_effect_counterexample :
    apply_transaction
        ⟨⟨0, "c"⟩, ⟨[], [], []⟩, Json.obj [("a", Json.obj [("x", Json.num ⟨1, 1⟩)])], []⟩
        "p" "i" none
        ⟨HashVal.str "", "", Json.null, [], [], 0, HashVal.str "", none⟩
        [Effect.create "a" (lit (Json.str "x")) (Json.obj []), Effect.fail "boom"]
        ⟨"t", 0⟩ ⟨none, none⟩ =
      (.error (.validation "entity_exists: a.x"),
       ⟨⟨0, "c"⟩, ⟨[], [], []⟩, Json.obj [("a", Json.obj [("x", Json.num ⟨1, 1⟩)])], []⟩) ∧
    "entity_exists: a.x" ≠ "program_fail: " ++ "boom" := by
  decide

/-- Per-record clauses of the ledger invariant: each record steps the
version by one and carries the canonical hash of itself with
`record_hash`/`record_signature` cleared. -/
def records_ok (hist : List EffectRecord) : Bool :=
  hist.all (fun r => decide (r.version_applied_to + 1 = r.resulting_version) &&
    decide (r.record_hash = record_hash_of r))

/-- Hash-chain clause of the ledger invariant: every record after the first
links to its predecessor's `record_hash`. -/
def chain_ok : List EffectRecord → Bool
  | [] => true
  | [_] => true
  | a :: b :: rest =>
      decide (b.previous_record_hash = some a.record_hash) && chain_ok (b :: rest)

/-- The ledger-state invariant of C2. -/
def ledger_inv (st : LedgerState) : Prop :=
  st.meta.version = st.history.length ∧ records_ok st.history = true ∧
    chain_ok st.history = true

theorem chain_ok_append (hist : List EffectRecord) (r : EffectRecord)
    (h : chain_ok hist = true)
    (hl : ∀ last, hist.getLast? = some last →
      r.previous_record_hash = some last.record_hash) :
    chain_ok (hist ++ [r]) = true := by
  induction hist with
  | nil => simp [chain_ok]
  | cons a tl ih =>
      cases tl with
      | nil =>
          simp only [List.nil_append, List.cons_append, chain_ok, Bool.and_eq_true,
            decide_eq_true_eq]
          exact ⟨hl a rfl, trivial⟩
      | cons b tl2 =>
          simp only [chain_ok, Bool.and_eq_true, decide_eq_true_eq] at h
          have h2 := ih h.2 (fun last hlast => hl last (by
            rw [List.getLast?_cons_cons]
            exact hlast))
          simp only [List.cons_append, chain_ok, Bool.and_eq_true, decide_eq_true_eq]
          exact ⟨h.1, by simpa using h2⟩

/-- C2: the ledger-state invariant — `meta.version = history.length`, the
hash chain links every record to its predecessor, every record steps the
version by one, and every `record_hash` is the canonical hash of the record
with `record_hash` and `record_signature` cleared — holds in the initial
empty state and is preserved by every successful `apply_transaction`. -/
theorem ledger_invariant (ca : String) :
    ledger_inv (initial_state ca) ∧
    ∀ st ph ih tv proof effects meta keys rec st2,
      apply_transaction st ph ih tv proof effects meta keys = (.ok rec, st2) →
      ledger_inv st → ledger_inv st2 := by
  constructor
  · exact ⟨rfl, rfl, rfl⟩
  · intro st ph ih tv proof effects meta keys rec st2 happ hinv
    have htail : apply_tail st ph ih proof effects meta keys = (.ok rec, st2) := by
      cases tv with
      | none => exact happ
      | some v =>
          by_cases hv : v = st.meta.version
          · simp only [apply_transaction] at happ
            rw [if_neg (show ¬(v ≠ st.meta.version) by simp [hv])] at happ
            exact happ
          · exfalso
            simp only [apply_transaction] at happ
            rw [if_pos hv] at happ
            injection happ with h1 h2
            cases h1
    revert htail
    simp only [apply_tail]
    cases heff : apply_effects proof meta effects st.root [] with
    | error e => intro htail; injection htail with h1 h2; cases h1
    | ok ra =>
        intro htail
        injection htail with h1 h2
        subst h2
        obtain ⟨hv, hrec, hch⟩ := hinv
        refine ⟨?_, ?_, ?_⟩
        · simp [hv]
        · simp only [records_ok, List.all_append, Bool.and_eq_true]
          refine ⟨hrec, ?_⟩
          simp [record_hash_of]
        · refine chain_ok_append _ _ hch ?_
          intro last hlast
          simp [hlast]

theorem ledger_invariant_witness :
    ledger_inv (apply_transaction (initial_state "c") "p" "i" none
        ⟨HashVal.str "", "", Json.null, [], [], 0, HashVal.str "", none⟩ []
        ⟨"t", 0⟩ ⟨none, none⟩).2 := by
  have happ : apply_transaction (initial_state "c") "p" "i" none
      ⟨HashVal.str "", "", Json.null, [], [], 0, HashVal.str "", none⟩ []
      ⟨"t", 0⟩ ⟨none, none⟩ =
      (.ok ⟨"t", 0, 1, "ts+", "p", "i", HashVal.str "", [], none,
         HashVal.recordH "t" 0 1 "ts+" "p" "i" (HashVal.str "") [] none, none⟩,
       ⟨⟨1, "c"⟩, ⟨[], [], []⟩, Json.obj [],
        [⟨"t", 0, 1, "ts+", "p", "i", HashVal.str "", [], none,
          HashVal.recordH "t" 0 1 "ts+" "p" "i" (HashVal.str "") [] none, none⟩]⟩) := by
    decide
  rw [happ]
  exact (ledger_invariant "c").2 _ _ _ _ _ _ _ _ _ _ happ (ledger_invariant "c").1

/-- C1 (amended): a proof built by `execute_chip_signed` verifies under
`verify_proof` with the same chip and key material, provided (i) the
execution instant is representable at the proof's seconds-precision
`evaluated_at` (whole-second instants; sub-second instants are truncated by
the timestamp rendering, so time-sensitive gates can replay differently),
and (ii) the key material is a consistent pair (a verifying key present
alongside a signing key is the signing key's public half). -/
theorem build_verify_roundtrip (chip : Chip) (ctx : Json) (meta : ExecMeta)
    (keys : KeyMaterial) (wallClock : Int)
    (ht : nsPerSec ∣ meta.execution_time)
    (hk : ∀ sk vk, keys.signing = some sk → keys.verifying = some vk → vk = sk) :
    verify_proof (execute_chip_signed chip ctx meta keys) chip keys wallClock = true := by
  obtain ⟨c, hc⟩ := ht
  have hT : verify_exec_time (execute_chip_signed chip ctx meta keys) wallClock =
      meta.execution_time := by
    unfold verify_exec_time
    have he : (execute_chip_signed chip ctx meta keys).evaluated_at =
        render_ts (Int.fdiv meta.execution_time nsPerSec) := rfl
    rw [he, parse_render_ts]
    show Int.fdiv meta.execution_time nsPerSec * nsPerSec = meta.execution_time
    rw [hc, Int.mul_fdiv_cancel_left _ (by decide)]
    exact Int.mul_comm c nsPerSec
  unfold verify_proof
  rw [if_neg (fun h => h rfl)]
  rw [if_neg (fun h => h rfl)]
  rw [hT]
  rw [if_neg (fun h => h rfl)]
  have hps : (execute_chip_signed chip ctx meta keys).signature =
      Option.map (fun sk => (⟨sk, (execute_chip_signed chip ctx meta keys).proof_hash⟩ : Sig))
        keys.signing := rfl
  rw [hps]
  cases hsig : keys.signing with
  | none =>
      cases keys.verifying <;> rfl
  | some sk =>
      cases hver : keys.verifying with
      | none => rfl
      | some vk =>
          have hvs := hk sk vk hsig hver
          subst hvs
          simp [verify_sig_b64, hver]

/-- C1 counterexample: at the sub-second instant 9.5 s, a chip whose single
gate tests `age(ts₁₀) ≥ 0` passes at build time (the age truncates to 0) but
`evaluated_at` records only the floor second 9, so the replay inside
`verify_proof` computes age −1, the gate fails, and verification returns
false for a freshly built, untampered proof — refuting the claim for
arbitrary execution instants. -/
theorem build_verify_counterexample :
    verify_proof
      (execute_chip_signed
        ⟨"age", "", [⟨"g", "", .compare .ge (.call "age" [lit (Json.str (render_ts 10))])
            (lit (Json.num ⟨0, 1⟩))⟩], ChipComposition.shorthand "ALL", HashVal.str ""⟩
        Json.null ⟨"t", 9500000000⟩ ⟨none, none⟩)
      ⟨"age", "", [⟨"g", "", .compare .ge (.call "age" [lit (Json.str (render_ts 10))])
          (lit (Json.num ⟨0, 1⟩))⟩], ChipComposition.shorthand "ALL", HashVal.str ""⟩
      ⟨none, none⟩ 0 = false := by
  decide

theorem build_verify_roundtrip_witness :
    verify_proof
      (execute_chip_signed
        ⟨"age", "", [⟨"g", "", .compare .ge (.call "age" [lit (Json.str (render_ts 10))])
            (lit (Json.num ⟨0, 1⟩))⟩], ChipComposition.shorthand "ALL", HashVal.str ""⟩
        Json.null ⟨"t", 11000000000⟩ ⟨some 5, some 5⟩)
      ⟨"age", "", [⟨"g", "", .compare .ge (.call "age" [lit (Json.str (render_ts 10))])
          (lit (Json.num ⟨0, 1⟩))⟩], ChipComposition.shorthand "ALL", HashVal.str ""⟩
      ⟨some 5, some 5⟩ 0 = true :=
  build_verify_roundtrip _ Json.null ⟨"t", 11000000000⟩ ⟨some 5, some 5⟩ 0
    ⟨11, by decide⟩
    (fun sk vk h1 h2 => by
      injection h1 with e1
      injection h2 with e2
      rw [← e1, ← e2])

/-- A chip whose single gate `age(ts₀) > 0` depends on the execution
instant (used to exhibit C10's wall-clock dependence). -/
def chip_c10 : Chip :=
  ⟨"c10", "", [⟨"g", "", .compare .gt (.call "age" [lit (Json.str (render_ts 0))])
      (lit (Json.num ⟨0, 1⟩))⟩], ChipComposition.shorthand "ALL", HashVal.str ""⟩

/-- A proof over `chip_c10` whose `evaluated_at` is not a parseable
timestamp but whose `proof_hash` is recomputed to be consistent with its
contents (so the structural checks of `verify_proof` pass and the replay
falls back to the wall clock). -/
def proof_c10 : Proof :=
  let p0 := execute_chip_signed chip_c10 Json.null ⟨"x", 2000000000⟩ ⟨none, none⟩
  let p1 := { p0 with evaluated_at := "xx", proof_hash := HashVal.str "" }
  { p1 with proof_hash := proof_hash_of p1 }

/-- C10: `verify_proof` is not a function of `(proof, chip, keys)` alone —
for a proof whose `evaluated_at` does not parse (but whose `proof_hash` is
consistent with its contents), the replay substitutes the wall clock, so the
same call answers `true` at one wall-clock instant and `false` at another
when a gate's outcome depends on the execution time. -/
theorem verify_wallclock_dependence :
    verify_proof proof_c10 chip_c10 ⟨none, none⟩ 2000000000 = true ∧
    verify_proof proof_c10 chip_c10 ⟨none, none⟩ 0 = false := by
  decide

theorem alookup_ainsert {α β : Type} [DecidableEq α] (k : α) (v : β) :
    ∀ l : List (α × β), alookup k (ainsert k v l) = some v := by
  intro l
  induction l with
  | nil => simp [ainsert, alookup]
  | cons hd tl ih =>
      obtain ⟨k2, v2⟩ := hd
      unfold ainsert
      by_cases hk : k2 = k
      · rw [if_pos hk]
        simp [alookup]
      · rw [if_neg hk]
        unfold alookup
        rw [if_neg hk]
        exact ih

/-- Every successful registration establishes the registry coherence that
the no-op clause of `register_chip_semantics` assumes: the name maps to the
canonical hash and the chips map holds the re-hashed chip under it. -/
theorem register_chip_establishes (st : LedgerState) (chip : Chip) (h : HashVal)
    (st2 : LedgerState) :
    register_chip st chip = (.ok h, st2) →
    h = compute_chip_hash chip ∧
    alookup chip.name st2.registry.chip_names = some h ∧
    alookup h st2.registry.chips = some { chip with hash := h } := by
  intro hr
  rcases halo : alookup chip.name st.registry.chip_names with _ | h0
  · simp only [register_chip, halo] at hr
    injection hr with h1 h2
    injection h1 with h1e
    subst h1e
    subst h2
    exact ⟨rfl, by simp [alookup_ainsert], by simp [alookup_ainsert]⟩
  · by_cases hne : h0 = compute_chip_hash chip
    · subst hne
      simp only [register_chip, halo] at hr
      rw [if_neg (by simp)] at hr
      injection hr with h1 h2
      injection h1 with h1e
      subst h1e
      subst h2
      exact ⟨rfl, by simp [alookup_ainsert], by simp [alookup_ainsert]⟩
    · simp only [register_chip, halo] at hr
      rw [if_pos (by simpa using hne)] at hr
      injection hr with h1 h2
      cases h1
